import Mathlib

/-!
Verification of the sanctum-token-ratio repository: a shallow embedding of
ratio application/reversal (floor- and ceiling-rounded) on u64 amounts and
of the fee layer built on top of it, with theorems settling the spec claims.

Machine integers are embedded as natural numbers. All intermediate
arithmetic in the source is performed in `u128` on operands bounded by
`u64::MAX`, so no `u128` operation can wrap (the source asserts this in its
`unchecked-arith` comments); the embedding therefore uses plain `Nat`
arithmetic, and every theorem carries explicit `≤ U64MAX` bounds that scope
it to the values representable in the source's types.
-/

namespace SanctumTokenRatio

/-- The constant `u64::MAX = 2^64 - 1`. -/
def U64MAX : ℕ := 18446744073709551615

/-- Embeds `Ratio<N, D>` from src/ratio/src/lib.rs: a numerator/denominator
pair. The bit-width pair (N, D) is erased; the width constraints reappear as
`≤ U64MAX` hypotheses on theorems (every supported width is a subtype of u64). -/
structure Ratio where
  n : ℕ
  d : ℕ
deriving DecidableEq

/-- Embeds `Ratio::is_zero`: true iff numerator or denominator is 0. -/
def Ratio.isZero (r : Ratio) : Bool :=
  r.n == 0 || r.d == 0

/-- Embeds `Ratio::is_one`: not zero and numerator equals denominator
(the widening casts to `Max` are lossless, hence identity on ℕ). -/
def Ratio.isOne (r : Ratio) : Bool :=
  !r.isZero && r.n == r.d

set_option linter.unusedVariables false in
/-- Embeds the recursive `gcd` of src/ratio/src/lib.rs:
`if b > 0 { gcd(b, a % b) } else { a }`. -/
def gcdRust (a b : ℕ) : ℕ :=
  if h : 0 < b then gcdRust b (a % b) else a
termination_by b
decreasing_by exact Nat.mod_lt _ h

/-- Embeds `Ratio::lowest_form`: `0/0` for the zero ratio, otherwise both
components divided by `gcd(d, n)` (computed in the lossless widening `Max`). -/
def Ratio.lowestForm (r : Ratio) : Ratio :=
  if r.isZero then ⟨0, 0⟩
  else
    let g := gcdRust r.d r.n
    ⟨r.n / g, r.d / g⟩

/-- Embeds `Ratio::const_cmp`: zero ratios compare equal to each other and
less than non-zero ratios; otherwise cross-multiplication in the lossless
widening `Ext`. -/
def Ratio.constCmp (a b : Ratio) : Ordering :=
  match a.isZero, b.isZero with
  | true, true => Ordering.eq
  | true, false => Ordering.lt
  | false, true => Ordering.gt
  | false, false =>
    let lhs := a.n * b.d
    let rhs := b.n * a.d
    if lhs = rhs then Ordering.eq
    else if lhs < rhs then Ordering.lt
    else Ordering.gt

/-- Embeds the data fed to the hasher by `impl Hash for Ratio`: the
numerator and denominator of the lowest form, in order. -/
def Ratio.hashData (r : Ratio) : ℕ × ℕ :=
  (r.lowestForm.n, r.lowestForm.d)

/-- Embeds `u128_to_u64_checked` from src/u64-ratio/src/utils.rs. -/
def u128ToU64Checked (x : ℕ) : Option ℕ :=
  if x > U64MAX then none else some x

/-- Embeds Rust's `u128::div_ceil`: quotient plus one when the remainder is
non-zero. -/
def divCeil (a b : ℕ) : ℕ :=
  a / b + if a % b = 0 then 0 else 1

/-- Embeds `RangeInclusive<u64>`: the closed interval `lo..=hi`. -/
structure RangeInclusive where
  lo : ℕ
  hi : ℕ
deriving DecidableEq

/-- Membership in an inclusive range. -/
def RangeInclusive.contains (rg : RangeInclusive) (x : ℕ) : Prop :=
  rg.lo ≤ x ∧ x ≤ rg.hi

instance (rg : RangeInclusive) (x : ℕ) : Decidable (rg.contains x) := by
  unfold RangeInclusive.contains; infer_instance

/-- Embeds `Floor::apply` from src/ratio/src/div/floor.rs. -/
def Floor.apply (r : Ratio) (amount : ℕ) : Option ℕ :=
  if r.isZero then some 0
  else u128ToU64Checked (amount * r.n / r.d)

/-- Embeds `Floor::reverse` from src/ratio/src/div/floor.rs. -/
def Floor.reverse (r : Ratio) (amtAfterApply : ℕ) : Option RangeInclusive :=
  if r.isZero then
    if amtAfterApply = 0 then some ⟨0, U64MAX⟩ else none
  else
    let dy := r.d * amtAfterApply
    match u128ToU64Checked (divCeil dy r.n) with
    | none => none
    | some mn =>
      let dyPlusD := dy + r.d
      let max0 := dyPlusD / r.n
      let max1 := if dyPlusD % r.n = 0 then max0 - 1 else max0
      match u128ToU64Checked max1 with
      | none => some ⟨mn, U64MAX⟩
      | some mx => some ⟨mn, mx⟩

/-- Embeds `CeilDiv::apply` from src/ratio/src/ceil.rs. -/
def CeilDiv.apply (r : Ratio) (amount : ℕ) : Option ℕ :=
  if r.isZero then some 0
  else u128ToU64Checked (divCeil (amount * r.n) r.d)

/-- Embeds `CeilDiv::reverse` from src/ratio/src/ceil.rs. -/
def CeilDiv.reverse (r : Ratio) (amtAfterApply : ℕ) : Option RangeInclusive :=
  if r.isZero then
    if amtAfterApply = 0 then some ⟨0, U64MAX⟩ else none
  else if amtAfterApply = 0 then some ⟨0, 0⟩
  else
    let dy := r.d * amtAfterApply
    let dyMinusD := dy - r.d
    let min0 := divCeil dyMinusD r.n
    let min1 := if dyMinusD % r.n = 0 then min0 + 1 else min0
    match u128ToU64Checked min1 with
    | none => none
    | some mn =>
      match u128ToU64Checked (dy / r.n) with
      | none => some ⟨mn, U64MAX⟩
      | some mx => some ⟨mn, mx⟩

/-- The rounding mode tag distinguishing the two structurally symmetric
implementations `Floor` and `CeilDiv`. -/
inductive Mode
  | floor
  | ceil
deriving DecidableEq

/-- Mode-dispatching wrapper over the two `apply` implementations. -/
def applyMode : Mode → Ratio → ℕ → Option ℕ
  | Mode.floor => Floor.apply
  | Mode.ceil => CeilDiv.apply

/-- Mode-dispatching wrapper over the two `reverse` implementations. -/
def reverseMode : Mode → Ratio → ℕ → Option RangeInclusive
  | Mode.floor => Floor.reverse
  | Mode.ceil => CeilDiv.reverse

/-- Embeds Rust's `u64::checked_sub`. -/
def checkedSub (a b : ℕ) : Option ℕ :=
  if b ≤ a then some (a - b) else none

/-- Embeds `AftFee` from src/fee-ratio/src/aft_bef_fee.rs. -/
structure AftFee where
  rem : ℕ
  fee : ℕ
deriving DecidableEq

/-- Embeds `AftFee::bef_fee`: `self.rem + self.fee`. -/
def AftFee.befFee (a : AftFee) : ℕ :=
  a.rem + a.fee

/-- Embeds `BefFee::with_fee` from src/fee-ratio/src/aft_bef_fee.rs:
checked subtraction `amount - fee` gives the remainder. -/
def BefFee.withFee (amount fee : ℕ) : Option AftFee :=
  match checkedSub amount fee with
  | none => none
  | some rem => some ⟨rem, fee⟩

/-- Embeds `BefFee::with_rem` from src/fee-ratio/src/aft_bef_fee.rs:
checked subtraction `amount - rem` gives the fee. -/
def BefFee.withRem (amount rem : ℕ) : Option AftFee :=
  match checkedSub amount rem with
  | none => none
  | some fee => some ⟨rem, fee⟩

/-- Embeds `Fee::new` from src/fee-ratio/src/lib.rs (the `Ceil` and `Floor`
impl bodies are textually identical): `None` when `d == 0` or when `n > d`
in the lossless widened comparison, else `Some` of the wrapped ratio. -/
def Fee.new (r : Ratio) : Option Ratio :=
  if r.d = 0 ∨ r.n > r.d then none else some r

/-- Embeds `Fee::one_minus_fee_ratio` (identical for both modes): `ONE` when
the ratio is zero, else `(d - n) / d` in the lossless widening. -/
def oneMinusFeeRatio (r : Ratio) : Ratio :=
  if r.isZero then ⟨1, 1⟩ else ⟨r.d - r.n, r.d⟩

/-- Embeds `Fee::apply` (identical body for both modes, dispatching to the
mode's inner `apply`): compute the fee then build the pair by checked
subtraction. -/
def Fee.applyWith (m : Mode) (r : Ratio) (amount : ℕ) : Option AftFee :=
  match applyMode m r amount with
  | none => none
  | some fee => BefFee.withFee amount fee

/-- Embeds `Fee::reverse_from_rem`: singleton range for the zero ratio, else
reverse through the complementary ratio with the opposite rounding mode. -/
def Fee.reverseFromRem (m : Mode) (r : Ratio) (rem : ℕ) : Option RangeInclusive :=
  if r.isZero then some ⟨rem, rem⟩
  else
    match m with
    | Mode.ceil => Floor.reverse (oneMinusFeeRatio r) rem
    | Mode.floor => CeilDiv.reverse (oneMinusFeeRatio r) rem

/-- Spec-side definition (for the refinement claim C2, following the spec's
words): the mathematically exact rounded value `floor(x·n/d)` resp.
`ceil(x·n/d)` of the rational `x·n/d`, as a natural number. -/
def specRounded (m : Mode) (r : Ratio) (x : ℕ) : ℕ :=
  match m with
  | Mode.floor => Nat.floor ((x * r.n : ℚ) / r.d)
  | Mode.ceil => Nat.ceil ((x * r.n : ℚ) / r.d)

/-! ### Basic characterizations -/

/-- The source's gcd agrees with `Nat.gcd` with its arguments flipped. -/
theorem gcdRust_eq (a b : ℕ) : gcdRust a b = Nat.gcd b a := by
  induction b using Nat.strong_induction_on generalizing a with
  | _ b ih =>
    rw [gcdRust]
    by_cases h : 0 < b
    · rw [dif_pos h, ih (a % b) (Nat.mod_lt _ h)]
      exact (Nat.gcd_rec b a).symm
    · rw [dif_neg h]
      have hb : b = 0 := by omega
      subst hb
      exact (Nat.gcd_zero_left a).symm

theorem Ratio.isZero_false_iff (r : Ratio) :
    r.isZero = false ↔ 0 < r.n ∧ 0 < r.d := by
  simp [Ratio.isZero]
  omega

theorem Ratio.isZero_true_iff (r : Ratio) :
    r.isZero = true ↔ r.n = 0 ∨ r.d = 0 := by
  simp [Ratio.isZero]

theorem u128_some {v : ℕ} (hv : v ≤ U64MAX) : u128ToU64Checked v = some v := by
  unfold u128ToU64Checked
  rw [if_neg (by omega)]

theorem u128_some_elim {v m : ℕ} (h : u128ToU64Checked v = some m) :
    v = m ∧ v ≤ U64MAX := by
  unfold u128ToU64Checked at h
  split at h
  · cases h
  · rename_i hh
    exact ⟨Option.some_inj.mp h, by omega⟩

theorem u128_eq_some_iff {v y : ℕ} (hy : y ≤ U64MAX) :
    u128ToU64Checked v = some y ↔ v = y := by
  constructor
  · intro hc
    exact (u128_some_elim hc).1
  · rintro rfl
    exact u128_some hy

theorem u128_eq_none_iff {v : ℕ} : u128ToU64Checked v = none ↔ U64MAX < v := by
  unfold u128ToU64Checked
  split
  · rename_i h
    simp
    omega
  · rename_i h
    simp
    omega

/-- `divCeil a d` is the unique value `c` with `a ≤ d*c < a + d`. -/
theorem divCeil_spec (a d : ℕ) (hd : 0 < d) :
    a ≤ d * divCeil a d ∧ d * divCeil a d < a + d := by
  have h1 := Nat.div_add_mod a d
  have h2 := Nat.mod_lt a hd
  unfold divCeil
  by_cases hs : a % d = 0
  · rw [if_pos hs, Nat.add_zero]
    omega
  · rw [if_neg hs, Nat.mul_add, Nat.mul_one]
    omega

theorem divCeil_le_iff {a d x : ℕ} (hd : 0 < d) :
    divCeil a d ≤ x ↔ a ≤ x * d := by
  constructor
  · intro h
    have h1 := (divCeil_spec a d hd).1
    have h2 : d * divCeil a d ≤ d * x := Nat.mul_le_mul_left d h
    have h3 : d * x = x * d := Nat.mul_comm d x
    omega
  · intro h
    have h2 := (divCeil_spec a d hd).2
    have h3 : d * divCeil a d < d * (x + 1) := by
      have he : d * (x + 1) = x * d + d := by ring
      omega
    exact Nat.lt_succ_iff.mp (Nat.lt_of_mul_lt_mul_left h3)

theorem divCeil_eq_iff {a d y : ℕ} (hd : 0 < d) :
    divCeil a d = y ↔ a ≤ d * y ∧ d * y < a + d := by
  constructor
  · rintro rfl
    exact divCeil_spec a d hd
  · rintro ⟨h1, h2⟩
    have hA := divCeil_spec a d hd
    have hu : d * divCeil a d < d * (y + 1) := by
      have he : d * (y + 1) = d * y + d := by ring
      omega
    have hv : d * y < d * (divCeil a d + 1) := by
      have he : d * (divCeil a d + 1) = d * divCeil a d + d := by ring
      omega
    have hu2 := Nat.lt_of_mul_lt_mul_left hu
    have hv2 := Nat.lt_of_mul_lt_mul_left hv
    omega

/-- Floor division: `a / d` is the unique value `q` with `d*q ≤ a < d*q + d`. -/
theorem div_eq_iff_bounds {a d y : ℕ} (hd : 0 < d) :
    a / d = y ↔ d * y ≤ a ∧ a < d * y + d := by
  have h1 := Nat.div_add_mod a d
  have h2 := Nat.mod_lt a hd
  constructor
  · rintro rfl
    omega
  · rintro ⟨hl, hr⟩
    have hy1 : y ≤ a / d := (Nat.le_div_iff_mul_le hd).mpr (by
      have : y * d = d * y := Nat.mul_comm y d
      omega)
    have hy2 : a / d < y + 1 := (Nat.div_lt_iff_lt_mul hd).mpr (by
      have : (y + 1) * d = d * y + d := by ring
      omega)
    omega

/-- The upper bound computed by `Floor::reverse` (before saturation) is the
largest `x` with `x*n < M`, where `M = d*y + d`. -/
theorem le_floorRevMax_iff {x n M : ℕ} (hn : 0 < n) (hM : 0 < M) :
    (x ≤ if M % n = 0 then M / n - 1 else M / n) ↔ x * n < M := by
  by_cases hs : M % n = 0
  · rw [if_pos hs]
    have h1 := Nat.div_add_mod M n
    have hk : n * (M / n) = M := by omega
    have hq1 : 0 < M / n := by
      rcases Nat.eq_zero_or_pos (M / n) with h0 | h
      · rw [h0, Nat.mul_zero] at hk
        omega
      · exact h
    constructor
    · intro h
      have hxk : x < M / n := by omega
      have hmul := (Nat.mul_lt_mul_right hn).mpr hxk
      have he : M / n * n = n * (M / n) := Nat.mul_comm _ _
      omega
    · intro h
      have hmul : x * n < M / n * n := by
        have he : M / n * n = n * (M / n) := Nat.mul_comm _ _
        omega
      have hxk := (Nat.mul_lt_mul_right hn).mp hmul
      omega
  · rw [if_neg hs]
    have h1 := Nat.div_add_mod M n
    have h2 := Nat.mod_lt M hn
    constructor
    · intro h
      have hmul : x * n ≤ M / n * n := Nat.mul_le_mul_right n h
      have he : M / n * n = n * (M / n) := Nat.mul_comm _ _
      omega
    · intro h
      exact (Nat.le_div_iff_mul_le hn).mpr (Nat.le_of_lt h)

/-- The lower bound computed by `CeilDiv::reverse` equals `K/n + 1` in both
branches of its `rem == 0` correction. -/
theorem ceilRevMin_eq {K n : ℕ} :
    (if K % n = 0 then divCeil K n + 1 else divCeil K n) = K / n + 1 := by
  unfold divCeil
  by_cases hs : K % n = 0
  · rw [if_pos hs, if_pos hs]
  · rw [if_neg hs, if_neg hs]

/-- `Floor::apply` on a non-zero ratio returns `some y` exactly when `y` is
the floor of the rational `x·n/d` (the `y ≤ u64::MAX` check is subsumed by
the hypothesis). -/
theorem floorApply_eq_some_iff {r : Ratio} {x y : ℕ} (hz : r.isZero = false)
    (hy : y ≤ U64MAX) :
    Floor.apply r x = some y ↔ r.d * y ≤ x * r.n ∧ x * r.n < r.d * y + r.d := by
  obtain ⟨hn, hd⟩ := (Ratio.isZero_false_iff r).mp hz
  unfold Floor.apply
  rw [if_neg (by simp [hz]), u128_eq_some_iff hy]
  exact div_eq_iff_bounds hd

/-- `CeilDiv::apply` on a non-zero ratio returns `some y` exactly when `y` is
the ceiling of the rational `x·n/d`. -/
theorem ceilApply_eq_some_iff {r : Ratio} {x y : ℕ} (hz : r.isZero = false)
    (hy : y ≤ U64MAX) :
    CeilDiv.apply r x = some y ↔ x * r.n ≤ r.d * y ∧ r.d * y < x * r.n + r.d := by
  obtain ⟨hn, hd⟩ := (Ratio.isZero_false_iff r).mp hz
  unfold CeilDiv.apply
  rw [if_neg (by simp [hz]), u128_eq_some_iff hy]
  exact divCeil_eq_iff hd

/-- Round-trip/preimage exactness for the floor implementation: for u64
inputs, `apply` hits `y` exactly on the range returned by `reverse`
(`none` standing for the empty set). -/
theorem floorRoundtrip (r : Ratio) (x y : ℕ) (hx : x ≤ U64MAX) (hy : y ≤ U64MAX) :
    Floor.apply r x = some y ↔
      ∃ rg : RangeInclusive, Floor.reverse r y = some rg ∧ rg.contains x := by
  by_cases hz : r.isZero
  · unfold Floor.apply Floor.reverse
    rw [if_pos hz, if_pos hz]
    by_cases hy0 : y = 0
    · subst hy0
      rw [if_pos rfl]
      constructor
      · intro _
        exact ⟨⟨0, U64MAX⟩, rfl, Nat.zero_le x, hx⟩
      · intro _
        rfl
    · rw [if_neg hy0]
      constructor
      · intro hc
        exact absurd (Option.some_inj.mp hc).symm hy0
      · rintro ⟨rg, hrg, -⟩
        cases hrg
  · have hz' : r.isZero = false := by
      revert hz
      cases r.isZero <;> simp
    obtain ⟨hn, hd⟩ := (Ratio.isZero_false_iff r).mp hz'
    rw [floorApply_eq_some_iff hz' hy]
    unfold Floor.reverse
    rw [if_neg (by simp [hz'])]
    simp only []
    cases h1 : u128ToU64Checked (divCeil (r.d * y) r.n) with
    | none =>
      rw [u128_eq_none_iff] at h1
      simp only [Option.some.injEq]
      constructor
      · rintro ⟨hl, -⟩
        have hle : divCeil (r.d * y) r.n ≤ x := (divCeil_le_iff hn).mpr hl
        omega
      · rintro ⟨rg, hrg, -⟩
        cases hrg
    | some mn =>
      obtain ⟨hv, hvle⟩ := u128_some_elim h1
      have hM : 0 < r.d * y + r.d := by omega
      have e1 : mn ≤ x ↔ r.d * y ≤ x * r.n := by
        rw [← hv]
        exact divCeil_le_iff hn
      have e2 : (x ≤ if (r.d * y + r.d) % r.n = 0 then (r.d * y + r.d) / r.n - 1
          else (r.d * y + r.d) / r.n) ↔ x * r.n < r.d * y + r.d :=
        le_floorRevMax_iff hn hM
      cases h2 : u128ToU64Checked (if (r.d * y + r.d) % r.n = 0 then
          (r.d * y + r.d) / r.n - 1 else (r.d * y + r.d) / r.n) with
      | none =>
        rw [u128_eq_none_iff] at h2
        constructor
        · rintro ⟨hl, hr⟩
          refine ⟨⟨mn, U64MAX⟩, rfl, e1.mpr hl, hx⟩
        · rintro ⟨rg, hrg, hc⟩
          obtain rfl : RangeInclusive.mk mn U64MAX = rg := Option.some_inj.mp hrg
          refine ⟨e1.mp hc.1, e2.mp (by omega)⟩
      | some mx =>
        obtain ⟨hw, hwle⟩ := u128_some_elim h2
        constructor
        · rintro ⟨hl, hr⟩
          refine ⟨⟨mn, mx⟩, rfl, e1.mpr hl, ?_⟩
          rw [← hw]
          exact e2.mpr hr
        · rintro ⟨rg, hrg, hc⟩
          obtain rfl : RangeInclusive.mk mn mx = rg := Option.some_inj.mp hrg
          refine ⟨e1.mp hc.1, e2.mp ?_⟩
          rw [hw]
          exact hc.2

/-- Round-trip/preimage exactness for the ceiling implementation. -/
theorem ceilRoundtrip (r : Ratio) (x y : ℕ) (hx : x ≤ U64MAX) (hy : y ≤ U64MAX) :
    CeilDiv.apply r x = some y ↔
      ∃ rg : RangeInclusive, CeilDiv.reverse r y = some rg ∧ rg.contains x := by
  by_cases hz : r.isZero
  · unfold CeilDiv.apply CeilDiv.reverse
    rw [if_pos hz, if_pos hz]
    by_cases hy0 : y = 0
    · subst hy0
      rw [if_pos rfl]
      constructor
      · intro _
        exact ⟨⟨0, U64MAX⟩, rfl, Nat.zero_le x, hx⟩
      · intro _
        rfl
    · rw [if_neg hy0]
      constructor
      · intro hc
        exact absurd (Option.some_inj.mp hc).symm hy0
      · rintro ⟨rg, hrg, -⟩
        cases hrg
  · have hz' : r.isZero = false := by
      revert hz
      cases r.isZero <;> simp
    obtain ⟨hn, hd⟩ := (Ratio.isZero_false_iff r).mp hz'
    rw [ceilApply_eq_some_iff hz' hy]
    unfold CeilDiv.reverse
    rw [if_neg (by simp [hz'])]
    by_cases hy0 : y = 0
    · subst hy0
      rw [if_pos rfl]
      rw [Nat.mul_zero]
      constructor
      · rintro ⟨hl, -⟩
        have hx0 : x = 0 := by
          rcases Nat.mul_eq_zero.mp (Nat.le_zero.mp hl) with h | h
          · exact h
          · omega
        subst hx0
        exact ⟨⟨0, 0⟩, rfl, Nat.le_refl 0, Nat.le_refl 0⟩
      · rintro ⟨rg, hrg, hc⟩
        obtain rfl : RangeInclusive.mk 0 0 = rg := Option.some_inj.mp hrg
        have hx0 : x = 0 := Nat.le_zero.mp hc.2
        subst hx0
        rw [Nat.zero_mul]
        omega
    · rw [if_neg hy0]
      simp only []
      rw [ceilRevMin_eq]
      have hdy : r.d ≤ r.d * y := by
        have : r.d * 1 ≤ r.d * y := Nat.mul_le_mul_left r.d (by omega)
        omega
      have e1 : ∀ x' : ℕ, (r.d * y - r.d) / r.n + 1 ≤ x' ↔
          r.d * y < x' * r.n + r.d := by
        intro x'
        have h1 : (r.d * y - r.d) / r.n < x' ↔ r.d * y - r.d < x' * r.n :=
          Nat.div_lt_iff_lt_mul hn
        omega
      have e2 : ∀ x' : ℕ, x' ≤ r.d * y / r.n ↔ x' * r.n ≤ r.d * y := by
        intro x'
        exact Nat.le_div_iff_mul_le hn
      cases h1 : u128ToU64Checked ((r.d * y - r.d) / r.n + 1) with
      | none =>
        rw [u128_eq_none_iff] at h1
        constructor
        · rintro ⟨-, hr⟩
          have := (e1 x).mpr hr
          omega
        · rintro ⟨rg, hrg, -⟩
          cases hrg
      | some mn =>
        obtain ⟨hv, hvle⟩ := u128_some_elim h1
        cases h2 : u128ToU64Checked (r.d * y / r.n) with
        | none =>
          rw [u128_eq_none_iff] at h2
          constructor
          · rintro ⟨hl, hr⟩
            refine ⟨⟨mn, U64MAX⟩, rfl, ?_, hx⟩
            rw [← hv]
            exact (e1 x).mpr hr
          · rintro ⟨rg, hrg, hc⟩
            obtain rfl : RangeInclusive.mk mn U64MAX = rg := Option.some_inj.mp hrg
            have hc1 : mn ≤ x := hc.1
            have h1x : r.d * y < x * r.n + r.d := (e1 x).mp (by omega)
            have hx2 : x ≤ r.d * y / r.n := by omega
            exact ⟨(e2 x).mp hx2, h1x⟩
        | some mx =>
          obtain ⟨hw, hwle⟩ := u128_some_elim h2
          constructor
          · rintro ⟨hl, hr⟩
            refine ⟨⟨mn, mx⟩, rfl, ?_, ?_⟩
            · rw [← hv]
              exact (e1 x).mpr hr
            · rw [← hw]
              exact (e2 x).mpr hl
          · rintro ⟨rg, hrg, hc⟩
            obtain rfl : RangeInclusive.mk mn mx = rg := Option.some_inj.mp hrg
            have hc1 : mn ≤ x := hc.1
            have hc2 : x ≤ mx := hc.2
            refine ⟨(e2 x).mp (by omega), (e1 x).mp (by omega)⟩

/-! ### Fee layer lemmas -/

theorem Fee.new_valid {r : Ratio} (hv : Fee.new r = some r) :
    0 < r.d ∧ r.n ≤ r.d := by
  unfold Fee.new at hv
  split at hv
  · cases hv
  · rename_i h
    push_neg at h
    omega

theorem Fee.new_none_iff (r : Ratio) :
    Fee.new r = none ↔ r.d = 0 ∨ r.n > r.d := by
  unfold Fee.new
  split
  · rename_i h
    simp [h]
  · rename_i h
    simp [h]

/-- Exact rounding dual, ceiling side: `x − ceil(x·n/d) = floor(x·(d−n)/d)`. -/
theorem sub_divCeil_eq (x n d : ℕ) (hd : 0 < d) (hnd : n ≤ d) :
    x - divCeil (x * n) d = x * (d - n) / d := by
  have hs := divCeil_spec (x * n) d hd
  have ha : x * n ≤ x * d := Nat.mul_le_mul_left x hnd
  have hc : divCeil (x * n) d ≤ x := (divCeil_le_iff hd).mpr (by omega)
  have hdist : x * d = x * n + x * (d - n) := by
    rw [← Nat.mul_add]
    congr 1
    omega
  have hsplit : d * x = d * divCeil (x * n) d + d * (x - divCeil (x * n) d) := by
    rw [← Nat.mul_add]
    congr 1
    omega
  have hcomm : x * d = d * x := Nat.mul_comm x d
  symm
  rw [div_eq_iff_bounds hd]
  constructor <;> omega

/-- Exact rounding dual, floor side: `x − floor(x·n/d) = ceil(x·(d−n)/d)`. -/
theorem sub_div_eq (x n d : ℕ) (hd : 0 < d) (hnd : n ≤ d) :
    x - x * n / d = divCeil (x * (d - n)) d := by
  have h1 := Nat.div_add_mod (x * n) d
  have h2 := Nat.mod_lt (x * n) hd
  have ha : x * n ≤ x * d := Nat.mul_le_mul_left x hnd
  have hcomm : x * d = d * x := Nat.mul_comm x d
  have hql : d * (x * n / d) ≤ d * x := by omega
  have hq : x * n / d ≤ x := Nat.le_of_mul_le_mul_left hql hd
  have hdist : x * d = x * n + x * (d - n) := by
    rw [← Nat.mul_add]
    congr 1
    omega
  have hsplit : d * x = d * (x * n / d) + d * (x - x * n / d) := by
    rw [← Nat.mul_add]
    congr 1
    omega
  symm
  rw [divCeil_eq_iff hd]
  constructor <;> omega

/-- On a non-zero validly-constructed fee ratio, `Floor::apply` of the
complementary ratio computes exactly the remainder left by the ceiling fee. -/
theorem complApply_floor {r : Ratio} (hz : r.isZero = false) (hnd : r.n ≤ r.d)
    {x : ℕ} (hx : x ≤ U64MAX) :
    Floor.apply (oneMinusFeeRatio r) x = some (x - divCeil (x * r.n) r.d) := by
  obtain ⟨hn0, hd0⟩ := (Ratio.isZero_false_iff r).mp hz
  unfold oneMinusFeeRatio
  rw [if_neg (by simp [hz])]
  unfold Floor.apply
  by_cases hone : r.d - r.n = 0
  · rw [if_pos ((Ratio.isZero_true_iff _).mpr (Or.inl hone))]
    have hnd' : r.n = r.d := by omega
    have hcx : divCeil (x * r.n) r.d = x := by
      rw [divCeil_eq_iff hd0]
      rw [hnd']
      have hc : x * r.d = r.d * x := Nat.mul_comm x r.d
      omega
    rw [hcx, Nat.sub_self]
  · rw [if_neg (by
      intro hcon
      rcases (Ratio.isZero_true_iff _).mp hcon with h | h
      · exact hone h
      · exact absurd (show r.d = 0 from h) (by omega))]
    rw [← sub_divCeil_eq x r.n r.d hd0 hnd]
    apply u128_some
    have := Nat.sub_le x (divCeil (x * r.n) r.d)
    omega

/-- On a non-zero validly-constructed fee ratio, `CeilDiv::apply` of the
complementary ratio computes exactly the remainder left by the floor fee. -/
theorem complApply_ceil {r : Ratio} (hz : r.isZero = false) (hnd : r.n ≤ r.d)
    {x : ℕ} (hx : x ≤ U64MAX) :
    CeilDiv.apply (oneMinusFeeRatio r) x = some (x - x * r.n / r.d) := by
  obtain ⟨hn0, hd0⟩ := (Ratio.isZero_false_iff r).mp hz
  unfold oneMinusFeeRatio
  rw [if_neg (by simp [hz])]
  unfold CeilDiv.apply
  by_cases hone : r.d - r.n = 0
  · rw [if_pos ((Ratio.isZero_true_iff _).mpr (Or.inl hone))]
    have hnd' : r.n = r.d := by omega
    have hdx : x * r.n / r.d = x := by
      rw [hnd']
      exact Nat.mul_div_cancel x hd0
    rw [hdx, Nat.sub_self]
  · rw [if_neg (by
      intro hcon
      rcases (Ratio.isZero_true_iff _).mp hcon with h | h
      · exact hone h
      · exact absurd (show r.d = 0 from h) (by omega))]
    rw [← sub_div_eq x r.n r.d hd0 hnd]
    apply u128_some
    have := Nat.sub_le x (x * r.n / r.d)
    omega

/-- For a validly constructed fee ratio the inner rounded apply always
succeeds and its value never exceeds the amount. -/
theorem applyMode_fee_le {m : Mode} {r : Ratio} {x : ℕ} (hd0 : 0 < r.d)
    (hnd : r.n ≤ r.d) (hx : x ≤ U64MAX) :
    ∃ v, applyMode m r x = some v ∧ v ≤ x := by
  cases m with
  | floor =>
    show ∃ v, Floor.apply r x = some v ∧ v ≤ x
    unfold Floor.apply
    by_cases hz : r.isZero
    · rw [if_pos hz]
      exact ⟨0, rfl, Nat.zero_le x⟩
    · rw [if_neg hz]
      have ha : x * r.n ≤ x * r.d := Nat.mul_le_mul_left x hnd
      have hcomm : x * r.d = r.d * x := Nat.mul_comm x r.d
      have hql : r.d * (x * r.n / r.d) ≤ r.d * x := by
        have h1 := Nat.div_add_mod (x * r.n) r.d
        omega
      have hq : x * r.n / r.d ≤ x := Nat.le_of_mul_le_mul_left hql hd0
      exact ⟨x * r.n / r.d, u128_some (by omega), hq⟩
  | ceil =>
    show ∃ v, CeilDiv.apply r x = some v ∧ v ≤ x
    unfold CeilDiv.apply
    by_cases hz : r.isZero
    · rw [if_pos hz]
      exact ⟨0, rfl, Nat.zero_le x⟩
    · rw [if_neg hz]
      have ha : x * r.n ≤ x * r.d := Nat.mul_le_mul_left x hnd
      have hc : divCeil (x * r.n) r.d ≤ x := (divCeil_le_iff hd0).mpr ha
      exact ⟨divCeil (x * r.n) r.d, u128_some (by omega), hc⟩

/-- `Fee::apply` under the construction invariant: it succeeds and splits the
amount as `⟨x − v, v⟩` where `v` is the inner rounded apply value. -/
theorem Fee.applyWith_eq {m : Mode} {r : Ratio} {x : ℕ} (hd0 : 0 < r.d)
    (hnd : r.n ≤ r.d) (hx : x ≤ U64MAX) :
    ∃ v, applyMode m r x = some v ∧ v ≤ x ∧
      Fee.applyWith m r x = some ⟨x - v, v⟩ := by
  obtain ⟨v, hv, hvx⟩ := applyMode_fee_le (m := m) hd0 hnd hx
  refine ⟨v, hv, hvx, ?_⟩
  unfold Fee.applyWith
  rw [hv]
  show BefFee.withFee x v = some ⟨x - v, v⟩
  unfold BefFee.withFee checkedSub
  rw [if_pos hvx]

/-! ### Lowest form, ordering and hashing -/

theorem lowestForm_zero {r : Ratio} (hz : r.isZero = true) :
    r.lowestForm = ⟨0, 0⟩ := by
  unfold Ratio.lowestForm
  rw [if_pos hz]

theorem lowestForm_nonzero {r : Ratio} (hz : r.isZero = false) :
    r.lowestForm = ⟨r.n / Nat.gcd r.n r.d, r.d / Nat.gcd r.n r.d⟩ := by
  unfold Ratio.lowestForm
  rw [if_neg (by simp [hz])]
  show Ratio.mk (r.n / gcdRust r.d r.n) (r.d / gcdRust r.d r.n) = _
  rw [gcdRust_eq]

theorem lowestForm_pos {r : Ratio} (hz : r.isZero = false) :
    0 < r.lowestForm.n ∧ 0 < r.lowestForm.d := by
  obtain ⟨hn, hd⟩ := (Ratio.isZero_false_iff r).mp hz
  rw [lowestForm_nonzero hz]
  have hgp : 0 < Nat.gcd r.n r.d := Nat.gcd_pos_of_pos_left _ hn
  constructor
  · exact Nat.div_pos (Nat.le_of_dvd hn (Nat.gcd_dvd_left _ _)) hgp
  · exact Nat.div_pos (Nat.le_of_dvd hd (Nat.gcd_dvd_right _ _)) hgp

/-- For non-zero ratios, equal cross products is the same as identical
lowest forms: uniqueness of the reduced fraction. -/
theorem cross_iff {a b : Ratio} (ha : a.isZero = false) (hb : b.isZero = false) :
    a.n * b.d = b.n * a.d ↔ a.lowestForm = b.lowestForm := by
  obtain ⟨han, had⟩ := (Ratio.isZero_false_iff a).mp ha
  obtain ⟨hbn, hbd⟩ := (Ratio.isZero_false_iff b).mp hb
  rw [lowestForm_nonzero ha, lowestForm_nonzero hb]
  set g1 := Nat.gcd a.n a.d with hg1
  set g2 := Nat.gcd b.n b.d with hg2
  have hg1p : 0 < g1 := Nat.gcd_pos_of_pos_left _ han
  have hg2p : 0 < g2 := Nat.gcd_pos_of_pos_left _ hbn
  have h1n : g1 ∣ a.n := Nat.gcd_dvd_left _ _
  have h1d : g1 ∣ a.d := Nat.gcd_dvd_right _ _
  have h2n : g2 ∣ b.n := Nat.gcd_dvd_left _ _
  have h2d : g2 ∣ b.d := Nat.gcd_dvd_right _ _
  have e1n : g1 * (a.n / g1) = a.n := Nat.mul_div_cancel' h1n
  have e1d : g1 * (a.d / g1) = a.d := Nat.mul_div_cancel' h1d
  have e2n : g2 * (b.n / g2) = b.n := Nat.mul_div_cancel' h2n
  have e2d : g2 * (b.d / g2) = b.d := Nat.mul_div_cancel' h2d
  have hco1 : Nat.Coprime (a.n / g1) (a.d / g1) := Nat.coprime_div_gcd_div_gcd hg1p
  have hco2 : Nat.Coprime (b.n / g2) (b.d / g2) := Nat.coprime_div_gcd_div_gcd hg2p
  have hp1 : 0 < a.n / g1 := Nat.div_pos (Nat.le_of_dvd han h1n) hg1p
  constructor
  · intro hcross
    have hred : (a.n / g1) * (b.d / g2) = (b.n / g2) * (a.d / g1) := by
      apply Nat.eq_of_mul_eq_mul_left (Nat.mul_pos hg1p hg2p)
      calc g1 * g2 * ((a.n / g1) * (b.d / g2))
          = (g1 * (a.n / g1)) * (g2 * (b.d / g2)) := by ring
        _ = a.n * b.d := by rw [e1n, e2d]
        _ = b.n * a.d := hcross
        _ = (g2 * (b.n / g2)) * (g1 * (a.d / g1)) := by rw [e2n, e1d]
        _ = g1 * g2 * ((b.n / g2) * (a.d / g1)) := by ring
    have hdvd1 : (a.n / g1) ∣ (b.n / g2) := by
      apply Nat.Coprime.dvd_of_dvd_mul_right hco1
      exact ⟨b.d / g2, hred.symm⟩
    have hdvd2 : (b.n / g2) ∣ (a.n / g1) := by
      apply Nat.Coprime.dvd_of_dvd_mul_right hco2
      exact ⟨a.d / g1, hred⟩
    have hnn : a.n / g1 = b.n / g2 := Nat.dvd_antisymm hdvd1 hdvd2
    have hdd : a.d / g1 = b.d / g2 := by
      apply Nat.eq_of_mul_eq_mul_left hp1
      rw [hred, ← hnn]
    rw [hnn, hdd]
  · intro heq
    have hnn : a.n / g1 = b.n / g2 := congrArg Ratio.n heq
    have hdd : a.d / g1 = b.d / g2 := congrArg Ratio.d heq
    calc a.n * b.d = (g1 * (a.n / g1)) * (g2 * (b.d / g2)) := by rw [e1n, e2d]
      _ = (g1 * (b.n / g2)) * (g2 * (a.d / g1)) := by rw [hnn, ← hdd]
      _ = (g2 * (b.n / g2)) * (g1 * (a.d / g1)) := by ring
      _ = b.n * a.d := by rw [e2n, e1d]

/-! ### Bridges between machine arithmetic and exact rational rounding -/

theorem ceil_cast_div (a d : ℕ) (hd : 0 < d) :
    Nat.ceil ((a : ℚ) / (d : ℚ)) = divCeil a d := by
  have hdq : (0 : ℚ) < d := by exact_mod_cast hd
  apply le_antisymm
  · rw [Nat.ceil_le, div_le_iff₀ hdq]
    have h1 := (divCeil_spec a d hd).1
    have h2 : a ≤ divCeil a d * d := by
      have hc : d * divCeil a d = divCeil a d * d := Nat.mul_comm _ _
      omega
    exact_mod_cast h2
  · rcases Nat.eq_zero_or_pos (divCeil a d) with h0 | hpos
    · rw [h0]
      exact Nat.zero_le _
    · have h2 := (divCeil_spec a d hd).2
      have hlt : (divCeil a d - 1) * d < a := by
        have he : (divCeil a d - 1) * d = divCeil a d * d - d := by
          rw [Nat.sub_mul, one_mul]
        have hc : d * divCeil a d = divCeil a d * d := Nat.mul_comm _ _
        have hge : d * 1 ≤ d * divCeil a d := Nat.mul_le_mul_left d hpos
        have hone : d * 1 = d := Nat.mul_one d
        omega
      have hstep : (divCeil a d - 1 : ℕ) < Nat.ceil ((a : ℚ) / (d : ℚ)) := by
        rw [Nat.lt_ceil, lt_div_iff₀ hdq]
        exact_mod_cast hlt
      omega

theorem specRounded_floor (r : Ratio) (x : ℕ) :
    specRounded Mode.floor r x = x * r.n / r.d := by
  unfold specRounded
  rw [show ((x : ℚ) * (r.n : ℚ)) = ((x * r.n : ℕ) : ℚ) by push_cast; ring]
  rw [Nat.floor_div_nat, Nat.floor_natCast]

theorem specRounded_ceil (r : Ratio) (x : ℕ) (hd : 0 < r.d) :
    specRounded Mode.ceil r x = divCeil (x * r.n) r.d := by
  unfold specRounded
  rw [show ((x : ℚ) * (r.n : ℚ)) = ((x * r.n : ℕ) : ℚ) by push_cast; ring]
  exact ceil_cast_div (x * r.n) r.d hd

theorem Ratio.isOne_true_iff (r : Ratio) :
    r.isOne = true ↔ r.n = r.d ∧ 0 < r.d := by
  simp [Ratio.isOne, Ratio.isZero]
  omega

/-- A zero-ratio fee splits any amount as `⟨x, 0⟩` (all remainder, no fee). -/
theorem Fee.applyWith_zero {m : Mode} {r : Ratio} {x : ℕ} (hz : r.isZero = true) :
    Fee.applyWith m r x = some ⟨x, 0⟩ := by
  have happ : applyMode m r x = some 0 := by
    cases m
    · show Floor.apply r x = some 0
      unfold Floor.apply
      rw [if_pos hz]
    · show CeilDiv.apply r x = some 0
      unfold CeilDiv.apply
      rw [if_pos hz]
  unfold Fee.applyWith
  rw [happ]
  show BefFee.withFee x 0 = some ⟨x, 0⟩
  unfold BefFee.withFee checkedSub
  rw [if_pos (Nat.zero_le x), Nat.sub_zero]

/-- A one-ratio fee splits any amount as `⟨0, x⟩` (no remainder, all fee). -/
theorem Fee.applyWith_one {m : Mode} {r : Ratio} {x : ℕ} (hone : r.isOne = true)
    (hx : x ≤ U64MAX) :
    Fee.applyWith m r x = some ⟨0, x⟩ := by
  obtain ⟨hnd', hd0⟩ := (Ratio.isOne_true_iff r).mp hone
  have hz' : r.isZero = false := (Ratio.isZero_false_iff r).mpr (by omega)
  have happ : applyMode m r x = some x := by
    cases m
    · show Floor.apply r x = some x
      unfold Floor.apply
      rw [if_neg (by simp [hz'])]
      rw [hnd', Nat.mul_div_cancel x hd0]
      exact u128_some hx
    · show CeilDiv.apply r x = some x
      unfold CeilDiv.apply
      rw [if_neg (by simp [hz'])]
      have hcx : divCeil (x * r.n) r.d = x := by
        rw [divCeil_eq_iff hd0, hnd']
        have hc : x * r.d = r.d * x := Nat.mul_comm x r.d
        omega
      rw [hcx]
      exact u128_some hx
  unfold Fee.applyWith
  rw [happ]
  show BefFee.withFee x x = some ⟨0, x⟩
  unfold BefFee.withFee checkedSub
  rw [if_pos (Nat.le_refl x), Nat.sub_self]

theorem constCmp_zero_zero {a b : Ratio} (ha : a.isZero = true)
    (hb : b.isZero = true) : a.constCmp b = Ordering.eq := by
  unfold Ratio.constCmp
  rw [ha, hb]

theorem constCmp_zero_nonzero {a b : Ratio} (ha : a.isZero = true)
    (hb : b.isZero = false) : a.constCmp b = Ordering.lt := by
  unfold Ratio.constCmp
  rw [ha, hb]

theorem constCmp_nonzero_zero {a b : Ratio} (ha : a.isZero = false)
    (hb : b.isZero = true) : a.constCmp b = Ordering.gt := by
  unfold Ratio.constCmp
  rw [ha, hb]

theorem constCmp_nonzero {a b : Ratio} (ha : a.isZero = false)
    (hb : b.isZero = false) :
    a.constCmp b = if a.n * b.d = b.n * a.d then Ordering.eq
      else if a.n * b.d < b.n * a.d then Ordering.lt else Ordering.gt := by
  unfold Ratio.constCmp
  rw [ha, hb]

/-! ### Claim theorems -/

/-- C1: for every supported width pair, every rounding mode (floor and
ceiling), every ratio, every output `y`, and every u64 input `x`:
`apply(x) = Some(y)` iff `reverse(y)` returns a range containing `x`
(`none` denoting the empty set); in particular a successful apply implies a
successful reverse whose range contains `x`, and values outside the range do
not map to `y`. -/
theorem claim_c1_apply_iff_reverse_contains (m : Mode) (r : Ratio) (x y : ℕ)
    (hx : x ≤ U64MAX) (hy : y ≤ U64MAX) :
    applyMode m r x = some y ↔
      ∃ rg : RangeInclusive, reverseMode m r y = some rg ∧ rg.contains x := by
  cases m
  · exact floorRoundtrip r x y hx hy
  · exact ceilRoundtrip r x y hx hy

/-- C1 witness: concrete instance at ratio 1/2, floor mode, x = 10, y = 5. -/
theorem claim_c1_witness :
    ∃ rg : RangeInclusive, reverseMode Mode.floor ⟨1, 2⟩ 5 = some rg ∧
      rg.contains 10 :=
  (claim_c1_apply_iff_reverse_contains Mode.floor ⟨1, 2⟩ 10 5 (by decide)
    (by decide)).mp (by decide)

/-- C2: a zero ratio applies to `Some(0)` in both modes; otherwise `apply`
returns `Some` of the exact floor (resp. ceiling) of the rational `x·n/d`
when that value is at most `u64::MAX`, and `None` exactly when it exceeds
`u64::MAX`. -/
theorem claim_c2_apply_exact_rounding (m : Mode) (r : Ratio) (x : ℕ) :
    (r.isZero = true → applyMode m r x = some 0) ∧
    (r.isZero = false → applyMode m r x =
      if specRounded m r x ≤ U64MAX then some (specRounded m r x) else none) := by
  constructor
  · intro hz
    cases m
    · show Floor.apply r x = some 0
      unfold Floor.apply
      rw [if_pos hz]
    · show CeilDiv.apply r x = some 0
      unfold CeilDiv.apply
      rw [if_pos hz]
  · intro hz
    obtain ⟨hn0, hd0⟩ := (Ratio.isZero_false_iff r).mp hz
    cases m
    · show Floor.apply r x = _
      unfold Floor.apply
      rw [if_neg (by simp [hz]), specRounded_floor]
      unfold u128ToU64Checked
      by_cases hv : x * r.n / r.d ≤ U64MAX
      · rw [if_neg (by omega), if_pos hv]
      · rw [if_pos (by omega), if_neg hv]
    · show CeilDiv.apply r x = _
      unfold CeilDiv.apply
      rw [if_neg (by simp [hz]), specRounded_ceil r x hd0]
      unfold u128ToU64Checked
      by_cases hv : divCeil (x * r.n) r.d ≤ U64MAX
      · rw [if_neg (by omega), if_pos hv]
      · rw [if_pos (by omega), if_neg hv]

/-- C2 witness: concrete instance at ratio 1/3, ceiling mode, x = 10. -/
theorem claim_c2_witness :
    ((Ratio.mk 1 3).isZero = true → applyMode Mode.ceil ⟨1, 3⟩ 10 = some 0) ∧
    ((Ratio.mk 1 3).isZero = false → applyMode Mode.ceil ⟨1, 3⟩ 10 =
      if specRounded Mode.ceil ⟨1, 3⟩ 10 ≤ U64MAX
      then some (specRounded Mode.ceil ⟨1, 3⟩ 10) else none) :=
  claim_c2_apply_exact_rounding Mode.ceil ⟨1, 3⟩ 10

/-- C3 counterexample: at `n = 0, d = 0` the claim predicts successful
construction (it exempts `n = 0` with `d = 0`), but `Fee::new` (the `Ceil`
and `Floor` bodies are identical) returns `None`, and the claim's own
failure condition does not hold at this input. -/
theorem claim_c3_counterexample :
    Fee.new ⟨0, 0⟩ = none ∧
      ¬((Ratio.mk 0 0).n > (Ratio.mk 0 0).d ∨
        ((Ratio.mk 0 0).d = 0 ∧ (Ratio.mk 0 0).n ≠ 0)) := by
  constructor
  · rfl
  · decide

/-- C3 (amended): `Fee::new` (over Floor and over Ceil, whose bodies are
identical) returns `None` iff the denominator is 0 — whatever the numerator,
including `n = 0` with `d = 0` — or `n > d` in the widened comparison;
construction succeeds for all other ratios. -/
theorem claim_c3_new_none_iff (r : Ratio) :
    Fee.new r = none ↔ r.d = 0 ∨ r.n > r.d := by
  unfold Fee.new
  split
  · rename_i h
    simp [h]
  · rename_i h
    simp [h]

/-- C7: whenever both the ceiling and the floor apply succeed on the same
ratio and amount, the ceiling result exceeds the floor result by 0 or 1. -/
theorem claim_c7_ceil_sub_floor (r : Ratio) (x yc yf : ℕ)
    (hc : CeilDiv.apply r x = some yc) (hf : Floor.apply r x = some yf) :
    yf ≤ yc ∧ yc - yf ≤ 1 := by
  by_cases hz : r.isZero
  · unfold CeilDiv.apply at hc
    unfold Floor.apply at hf
    rw [if_pos hz] at hc hf
    have h1 : (0 : ℕ) = yc := Option.some_inj.mp hc
    have h2 : (0 : ℕ) = yf := Option.some_inj.mp hf
    omega
  · unfold CeilDiv.apply at hc
    unfold Floor.apply at hf
    rw [if_neg hz] at hc hf
    have h1 := (u128_some_elim hc).1
    have h2 := (u128_some_elim hf).1
    have hdb : divCeil (x * r.n) r.d = x * r.n / r.d ∨
        divCeil (x * r.n) r.d = x * r.n / r.d + 1 := by
      unfold divCeil
      by_cases hs : (x * r.n) % r.d = 0
      · rw [if_pos hs]
        left
        omega
      · rw [if_neg hs]
        right
        omega
    omega

/-- C7 witness: ratio 1/3 at x = 10 gives ceil 4 and floor 3. -/
theorem claim_c7_witness : (3 : ℕ) ≤ 4 ∧ (4 : ℕ) - 3 ≤ 1 :=
  claim_c7_ceil_sub_floor ⟨1, 3⟩ 10 4 3 (by decide) (by decide)

/-- C9: two ratios compare equal under `const_cmp` (zero representations
identified) iff their lowest forms are component-wise identical, and since
hashing feeds the lowest form to the hasher, equality implies equal hash
input. -/
theorem claim_c9_eq_iff_lowest_form (a b : Ratio) :
    (a.constCmp b = Ordering.eq ↔ a.lowestForm = b.lowestForm) ∧
    (a.constCmp b = Ordering.eq → a.hashData = b.hashData) := by
  have main : a.constCmp b = Ordering.eq ↔ a.lowestForm = b.lowestForm := by
    cases hza : a.isZero <;> cases hzb : b.isZero
    · by_cases hc : a.n * b.d = b.n * a.d
      · rw [constCmp_nonzero hza hzb, if_pos hc]
        exact iff_of_true rfl ((cross_iff hza hzb).mp hc)
      · rw [constCmp_nonzero hza hzb, if_neg hc]
        apply iff_of_false
        · split <;> simp
        · intro heq
          exact hc ((cross_iff hza hzb).mpr heq)
    · rw [constCmp_nonzero_zero hza hzb]
      apply iff_of_false
      · simp
      · intro heq
        have hpa := lowestForm_pos hza
        rw [heq, lowestForm_zero hzb] at hpa
        exact absurd (show (0 : ℕ) < 0 from hpa.1) (by omega)
    · rw [constCmp_zero_nonzero hza hzb]
      apply iff_of_false
      · simp
      · intro heq
        have hpb := lowestForm_pos hzb
        rw [← heq, lowestForm_zero hza] at hpb
        exact absurd (show (0 : ℕ) < 0 from hpb.1) (by omega)
    · rw [constCmp_zero_zero hza hzb]
      exact iff_of_true rfl (by rw [lowestForm_zero hza, lowestForm_zero hzb])
  refine ⟨main, fun h => ?_⟩
  unfold Ratio.hashData
  rw [main.mp h]

/-- C9 witness: the spec's example pair 2/4 and 1/2. -/
theorem claim_c9_witness :
    ((Ratio.mk 2 4).constCmp ⟨1, 2⟩ = Ordering.eq ↔
      (Ratio.mk 2 4).lowestForm = (Ratio.mk 1 2).lowestForm) ∧
    ((Ratio.mk 2 4).constCmp ⟨1, 2⟩ = Ordering.eq →
      (Ratio.mk 2 4).hashData = (Ratio.mk 1 2).hashData) :=
  claim_c9_eq_iff_lowest_form ⟨2, 4⟩ ⟨1, 2⟩

/-- C10: there exists a non-zero ratio and an output for which `reverse`
returns `Some` of an empty inclusive range (`lo > hi`) instead of `None`:
ratio 2/1 in floor mode at output 1. Callers cannot assume a `Some` result
is non-empty. -/
theorem claim_c10_empty_some_range :
    ∃ (r : Ratio) (y : ℕ), r.isZero = false ∧
      ∃ rg : RangeInclusive, Floor.reverse r y = some rg ∧ rg.hi < rg.lo :=
  ⟨⟨2, 1⟩, 1, by decide, ⟨1, 0⟩, by decide, by decide⟩

/-- C4: for a validly constructed fee, any rounding mode, any u64 `rem` and
amount `x`: `apply(x)` yields a pair with remainder `rem` iff
`reverse_from_rem(rem)` returns a range containing `x` — the exact rounding
dual `x − ceil(x·p) = floor(x·(1−p))` (and its mirror) makes reversing
through the complementary ratio with the opposite mode compute the exact
preimage; and a zero-ratio fee's `reverse_from_rem(rem)` is the singleton
`[rem, rem]`. -/
theorem claim_c4_reverse_from_rem_exact (m : Mode) (r : Ratio) (x rem : ℕ)
    (hx : x ≤ U64MAX) (hrem : rem ≤ U64MAX) (hv : Fee.new r = some r) :
    ((∃ a, Fee.applyWith m r x = some a ∧ a.rem = rem) ↔
      ∃ rg : RangeInclusive, Fee.reverseFromRem m r rem = some rg ∧
        rg.contains x) ∧
    (r.isZero = true → Fee.reverseFromRem m r rem = some ⟨rem, rem⟩) := by
  obtain ⟨hd0, hnd⟩ := Fee.new_valid hv
  have hsecond : r.isZero = true → Fee.reverseFromRem m r rem = some ⟨rem, rem⟩ := by
    intro hz
    unfold Fee.reverseFromRem
    rw [if_pos hz]
  refine ⟨?_, hsecond⟩
  by_cases hz : r.isZero
  · rw [hsecond hz, Fee.applyWith_zero hz]
    constructor
    · rintro ⟨a, ha, harem⟩
      obtain rfl := Option.some_inj.mp ha
      have hxr : x = rem := harem
      subst hxr
      exact ⟨⟨x, x⟩, rfl, Nat.le_refl x, Nat.le_refl x⟩
    · rintro ⟨rg, hrg, hcon⟩
      obtain rfl := Option.some_inj.mp hrg
      have h1 : rem ≤ x := hcon.1
      have h2 : x ≤ rem := hcon.2
      have hxr : x = rem := by omega
      subst hxr
      exact ⟨⟨x, 0⟩, rfl, rfl⟩
  · have hz' : r.isZero = false := by
      revert hz
      cases r.isZero <;> simp
    unfold Fee.reverseFromRem
    rw [if_neg (by simp [hz'])]
    cases m with
    | ceil =>
      obtain ⟨v, hva, hvx, happ⟩ := Fee.applyWith_eq (m := Mode.ceil) hd0 hnd hx
      have hveq : v = divCeil (x * r.n) r.d := by
        have hca : CeilDiv.apply r x = some v := hva
        unfold CeilDiv.apply at hca
        rw [if_neg (by simp [hz'])] at hca
        exact ((u128_some_elim hca).1).symm
      show (∃ a, Fee.applyWith Mode.ceil r x = some a ∧ a.rem = rem) ↔
        ∃ rg : RangeInclusive, Floor.reverse (oneMinusFeeRatio r) rem = some rg ∧
          rg.contains x
      rw [happ, ← floorRoundtrip (oneMinusFeeRatio r) x rem hx hrem,
        complApply_floor hz' hnd hx, ← hveq]
      constructor
      · rintro ⟨a, ha, harem⟩
        obtain rfl := Option.some_inj.mp ha
        rw [Option.some_inj]
        exact harem
      · intro h
        exact ⟨⟨x - v, v⟩, rfl, Option.some_inj.mp h⟩
    | floor =>
      obtain ⟨v, hva, hvx, happ⟩ := Fee.applyWith_eq (m := Mode.floor) hd0 hnd hx
      have hveq : v = x * r.n / r.d := by
        have hfa : Floor.apply r x = some v := hva
        unfold Floor.apply at hfa
        rw [if_neg (by simp [hz'])] at hfa
        exact ((u128_some_elim hfa).1).symm
      show (∃ a, Fee.applyWith Mode.floor r x = some a ∧ a.rem = rem) ↔
        ∃ rg : RangeInclusive, CeilDiv.reverse (oneMinusFeeRatio r) rem = some rg ∧
          rg.contains x
      rw [happ, ← ceilRoundtrip (oneMinusFeeRatio r) x rem hx hrem,
        complApply_ceil hz' hnd hx, ← hveq]
      constructor
      · rintro ⟨a, ha, harem⟩
        obtain rfl := Option.some_inj.mp ha
        rw [Option.some_inj]
        exact harem
      · intro h
        exact ⟨⟨x - v, v⟩, rfl, Option.some_inj.mp h⟩

/-- C4 witness: the spec's concrete scenario, fee ratio 1/3 in ceiling mode
applied to 10 gives remainder 6; reversing 6 yields a range containing 10. -/
theorem claim_c4_witness :
    ∃ rg : RangeInclusive, Fee.reverseFromRem Mode.ceil ⟨1, 3⟩ 6 = some rg ∧
      rg.contains 10 :=
  ((claim_c4_reverse_from_rem_exact Mode.ceil ⟨1, 3⟩ 10 6 (by decide) (by decide)
    (by decide)).1).mp ⟨⟨6, 4⟩, by decide, by decide⟩

/-- C5: for a validly constructed fee, `Fee::apply` always returns `Some`:
the inner rounded apply cannot overflow and the checked subtraction cannot
underflow, because the computed fee never exceeds the amount. -/
theorem claim_c5_apply_total (m : Mode) (r : Ratio) (x : ℕ) (hx : x ≤ U64MAX)
    (hv : Fee.new r = some r) :
    (∃ a, Fee.applyWith m r x = some a) ∧
    (∀ v, applyMode m r x = some v → v ≤ x) := by
  obtain ⟨hd0, hnd⟩ := Fee.new_valid hv
  obtain ⟨v, hva, hvx, happ⟩ := Fee.applyWith_eq (m := m) hd0 hnd hx
  refine ⟨⟨_, happ⟩, ?_⟩
  intro w hw
  rw [hva] at hw
  have hvw : v = w := Option.some_inj.mp hw
  omega

/-- C5 witness: fee ratio 1/2 in floor mode applied to 7. -/
theorem claim_c5_witness :
    (∃ a, Fee.applyWith Mode.floor ⟨1, 2⟩ 7 = some a) ∧
    (∀ v, applyMode Mode.floor ⟨1, 2⟩ 7 = some v → v ≤ 7) :=
  claim_c5_apply_total Mode.floor ⟨1, 2⟩ 7 (by decide) (by decide)

/-- C6: every `AftFee` built through `BefFee::with_fee` or `BefFee::with_rem`
satisfies `rem + fee = amount` without u64 overflow (so `bef_fee()` never
overflows), construction succeeds exactly when the subtracted argument is at
most the amount, and every successful `Fee::apply(x)` satisfies
`rem + fee = x`. -/
theorem claim_c6_aft_fee_invariant (amt v x : ℕ) (m : Mode) (r : Ratio)
    (hamt : amt ≤ U64MAX) (_hx : x ≤ U64MAX) :
    (∀ a, BefFee.withFee amt v = some a →
      a.rem + a.fee = amt ∧ a.befFee = amt ∧ a.befFee ≤ U64MAX) ∧
    ((∃ a, BefFee.withFee amt v = some a) ↔ v ≤ amt) ∧
    (∀ a, BefFee.withRem amt v = some a →
      a.rem + a.fee = amt ∧ a.befFee = amt ∧ a.befFee ≤ U64MAX) ∧
    ((∃ a, BefFee.withRem amt v = some a) ↔ v ≤ amt) ∧
    (∀ a, Fee.applyWith m r x = some a → a.rem + a.fee = x) := by
  have hwf : ∀ b w a, BefFee.withFee b w = some a →
      a = AftFee.mk (b - w) w ∧ w ≤ b := by
    intro b w a ha
    unfold BefFee.withFee checkedSub at ha
    by_cases hle : w ≤ b
    · rw [if_pos hle] at ha
      exact ⟨(Option.some_inj.mp ha).symm, hle⟩
    · rw [if_neg hle] at ha
      exact Option.noConfusion (show (none : Option AftFee) = some a from ha)
  have hwr : ∀ b w a, BefFee.withRem b w = some a →
      a = AftFee.mk w (b - w) ∧ w ≤ b := by
    intro b w a ha
    unfold BefFee.withRem checkedSub at ha
    by_cases hle : w ≤ b
    · rw [if_pos hle] at ha
      exact ⟨(Option.some_inj.mp ha).symm, hle⟩
    · rw [if_neg hle] at ha
      exact Option.noConfusion (show (none : Option AftFee) = some a from ha)
  refine ⟨?_, ?_, ?_, ?_, ?_⟩
  · intro a ha
    obtain ⟨rfl, hle⟩ := hwf amt v a ha
    refine ⟨show amt - v + v = amt by omega, show amt - v + v = amt by omega,
      show amt - v + v ≤ U64MAX by omega⟩
  · constructor
    · rintro ⟨a, ha⟩
      exact (hwf amt v a ha).2
    · intro hle
      refine ⟨⟨amt - v, v⟩, ?_⟩
      unfold BefFee.withFee checkedSub
      rw [if_pos hle]
  · intro a ha
    obtain ⟨rfl, hle⟩ := hwr amt v a ha
    refine ⟨show v + (amt - v) = amt by omega, show v + (amt - v) = amt by omega,
      show v + (amt - v) ≤ U64MAX by omega⟩
  · constructor
    · rintro ⟨a, ha⟩
      exact (hwr amt v a ha).2
    · intro hle
      refine ⟨⟨v, amt - v⟩, ?_⟩
      unfold BefFee.withRem checkedSub
      rw [if_pos hle]
  · intro a ha
    unfold Fee.applyWith at ha
    cases happ : applyMode m r x with
    | none =>
      rw [happ] at ha
      exact Option.noConfusion (show (none : Option AftFee) = some a from ha)
    | some fee =>
      rw [happ] at ha
      have ha' : BefFee.withFee x fee = some a := ha
      obtain ⟨rfl, hle⟩ := hwf x fee a ha'
      show x - fee + fee = x
      omega

/-- C6 witness: amount 10 with subtracted argument 3, and a concrete fee
application at ratio 1/2 on amount 10. -/
theorem claim_c6_witness :
    (∀ a, BefFee.withFee 10 3 = some a →
      a.rem + a.fee = 10 ∧ a.befFee = 10 ∧ a.befFee ≤ U64MAX) ∧
    ((∃ a, BefFee.withFee 10 3 = some a) ↔ 3 ≤ 10) ∧
    (∀ a, BefFee.withRem 10 3 = some a →
      a.rem + a.fee = 10 ∧ a.befFee = 10 ∧ a.befFee ≤ U64MAX) ∧
    ((∃ a, BefFee.withRem 10 3 = some a) ↔ 3 ≤ 10) ∧
    (∀ a, Fee.applyWith Mode.floor ⟨1, 2⟩ 10 = some a → a.rem + a.fee = 10) :=
  claim_c6_aft_fee_invariant 10 3 10 Mode.floor ⟨1, 2⟩ (by decide) (by decide)

/-- C8: a valid zero-ratio fee splits any amount as remainder `x`, fee `0`;
a valid one-ratio fee splits it as remainder `0`, fee `x`, in either mode. -/
theorem claim_c8_zero_one_boundary (m : Mode) (r : Ratio) (x : ℕ)
    (hx : x ≤ U64MAX) (_hv : Fee.new r = some r) :
    (r.isZero = true → Fee.applyWith m r x = some ⟨x, 0⟩) ∧
    (r.isOne = true → Fee.applyWith m r x = some ⟨0, x⟩) :=
  ⟨fun hz => Fee.applyWith_zero hz, fun hone => Fee.applyWith_one hone hx⟩

/-- C8 witness: the zero fee 0/1 and the one fee 1/1 in ceiling mode at 9. -/
theorem claim_c8_witness :
    (((Ratio.mk 0 1).isZero = true →
        Fee.applyWith Mode.ceil ⟨0, 1⟩ 9 = some ⟨9, 0⟩) ∧
      ((Ratio.mk 0 1).isOne = true →
        Fee.applyWith Mode.ceil ⟨0, 1⟩ 9 = some ⟨0, 9⟩)) ∧
    (((Ratio.mk 1 1).isZero = true →
        Fee.applyWith Mode.ceil ⟨1, 1⟩ 9 = some ⟨9, 0⟩) ∧
      ((Ratio.mk 1 1).isOne = true →
        Fee.applyWith Mode.ceil ⟨1, 1⟩ 9 = some ⟨0, 9⟩)) :=
  ⟨claim_c8_zero_one_boundary Mode.ceil ⟨0, 1⟩ 9 (by decide) (by decide),
    claim_c8_zero_one_boundary Mode.ceil ⟨1, 1⟩ 9 (by decide) (by decide)⟩


end SanctumTokenRatio
